import Mathlib

/-!
Verification of the chess self-learning engine backend (`backend/ai_engine.py`).

The chess rules engine (`python-chess`) is an external collaborator: it is
modelled abstractly by the `Rules` structure below (legal move generation,
move application, side to move, termination, piece placement).  The neural
network is a black box scoring function, modelled by an abstract
`model : Tensor → ℚ` (rationals stand in for floating point scalars; the
float sentinels `-inf` / `+inf` used by the search are modelled by the
`⊥` / `⊤` elements of `WithBot (WithTop ℚ)`).

Randomness (`random.random()` / `random.choice`) is modelled by explicit
oracle arguments: `r : ℚ` is the value drawn by `random.random()`, and a
natural number `k` selects the element `l[k % l.length]` for
`random.choice(l)`.

Mutable state is modelled by explicit state passing: the board's
push/pop move stack by `BoardState`, the learned network parameters by an
abstract state type threaded through the state-passing variants
(`minimaxF`, `get_moveF`).
-/

namespace ChessAI

/-- The six chess piece kinds, in the order of the `pieces` list of
`ChessEngine.board_to_tensor`. -/
inductive PieceType
  | pawn | knight | bishop | rook | queen | king
deriving DecidableEq, Repr, Fintype

/-- What `board.piece_at` returns for an occupied square: a color
(`true` = White, matching `chess.WHITE`) and a piece kind. -/
structure Piece where
  color : Bool
  pieceType : PieceType
deriving DecidableEq, Repr, Fintype

/-- The piece placement of a board: `board.piece_at` for each of the 64
squares. -/
abbrev BoardMap := Fin 64 → Option Piece

/-- The 768-entry feature vector produced by `board_to_tensor`
(entries are floats in the source; rationals here). -/
abbrev Tensor := Fin 768 → ℚ

/-- `pieces.index(piece.piece_type)` for the fixed list
`[PAWN, KNIGHT, BISHOP, ROOK, QUEEN, KING]`. -/
def pieceIndex : PieceType → Nat
  | .pawn => 0
  | .knight => 1
  | .bishop => 2
  | .rook => 3
  | .queen => 4
  | .king => 5

/-- `piece_idx + offset` where `offset = 0` for White and `6` for Black. -/
def pieceCode (p : Piece) : Nat :=
  pieceIndex p.pieceType + (if p.color then 0 else 6)

theorem pieceIndex_lt (t : PieceType) : pieceIndex t < 6 := by
  cases t <;> simp [pieceIndex]

theorem pieceCode_lt (p : Piece) : pieceCode p < 12 := by
  have h := pieceIndex_lt p.pieceType
  unfold pieceCode
  split <;> omega

/-- The index written for an occupied square:
`(square * 12) + (piece_idx + offset)`. -/
def slotIndex (sq : Fin 64) (p : Piece) : Fin 768 :=
  ⟨sq.val * 12 + pieceCode p, by
    have h1 := sq.isLt
    have h2 := pieceCode_lt p
    omega⟩

/-- One iteration of the `for square in chess.SQUARES` loop of
`board_to_tensor`: set `x[idx] = 1.0` when the square is occupied. -/
def tensorStep (board : BoardMap) (x : Tensor) (sq : Fin 64) : Tensor :=
  match board sq with
  | none => x
  | some p => Function.update x (slotIndex sq p) 1

/-- `ChessEngine.board_to_tensor`: start from `np.zeros(768)` and set one
entry per occupied square (the batch dimension added by `unsqueeze` is
irrelevant to the contents and not modelled). -/
def board_to_tensor (board : BoardMap) : Tensor :=
  (List.finRange 64).foldl (tensorStep board) (fun _ => 0)

/-- Whether the loop iteration for square `sq` writes tensor entry `i`. -/
def writesTo (board : BoardMap) (sq : Fin 64) (i : Fin 768) : Bool :=
  match board sq with
  | none => false
  | some p => decide (i = slotIndex sq p)

/-- Search values: float scalars extended with the `float('-inf')` /
`float('inf')` sentinels used by the search. -/
abbrev V := WithBot (WithTop ℚ)

/-- A finite scalar, as a search value. -/
def toV (q : ℚ) : V := ((q : WithTop ℚ) : V)

/-- Abstraction of the external rules engine (`python-chess`):
positions, moves, legal move generation, move application, side to move
(`true` = White), game termination, and piece placement. -/
structure Rules where
  Pos : Type
  Move : Type
  legalMoves : Pos → List Move
  push : Pos → Move → Pos
  turn : Pos → Bool
  gameOver : Pos → Bool
  pieceAt : Pos → BoardMap

/-- `ChessEngine.evaluate`: forward pass of the network on the encoded
board (`torch.no_grad` means no state change; see the state-passing
variant `evaluateF`). -/
def evaluate (g : Rules) (model : Tensor → ℚ) (pos : g.Pos) : V :=
  toV (model (board_to_tensor (g.pieceAt pos)))

/-- The `maximizing_player` loop body of `ChessEngine.minimax`:
track the running maximum, update `alpha` with the child value, and stop
as soon as `beta <= alpha`.  `rec` is the recursive call at `depth - 1`
with `maximizing_player = False`. -/
def maxLoop (g : Rules) (rec : g.Pos → V → V → V) (pos : g.Pos) :
    List g.Move → V → V → V → V
  | [], maxEval, _, _ => maxEval
  | m :: ms, maxEval, alpha, beta =>
    let e := rec (g.push pos m) alpha beta
    let maxEval' := max maxEval e
    let alpha' := max alpha e
    if beta ≤ alpha' then maxEval'
    else maxLoop g rec pos ms maxEval' alpha' beta

/-- The minimizing loop body of `ChessEngine.minimax`: track the running
minimum, update `beta`, and stop as soon as `beta <= alpha`. -/
def minLoop (g : Rules) (rec : g.Pos → V → V → V) (pos : g.Pos) :
    List g.Move → V → V → V → V
  | [], minEval, _, _ => minEval
  | m :: ms, minEval, alpha, beta =>
    let e := rec (g.push pos m) alpha beta
    let minEval' := min minEval e
    let beta' := min beta e
    if beta' ≤ alpha then minEval'
    else minLoop g rec pos ms minEval' alpha beta'

/-- `ChessEngine.minimax`: depth-limited alpha-beta search.  At depth 0 or
on a terminal position it returns `evaluate`; otherwise it runs the
maximizing or minimizing loop over the legal moves, starting the running
extremum at `-inf` / `+inf` and recursing at `depth - 1` with the flag
flipped. -/
def minimax (g : Rules) (model : Tensor → ℚ) :
    Nat → g.Pos → V → V → Bool → V
  | 0, pos, _, _, _ => evaluate g model pos
  | d + 1, pos, alpha, beta, maximizing =>
    if g.gameOver pos then evaluate g model pos
    else if maximizing then
      maxLoop g (fun p a b => minimax g model d p a b false) pos
        (g.legalMoves pos) ⊥ alpha beta
    else
      minLoop g (fun p a b => minimax g model d p a b true) pos
        (g.legalMoves pos) ⊤ alpha beta

/-- Specification-side definition (the spec's words, for the refinement
claim): the accumulating maximum over the children of a node, with no
pruning. -/
def pureMax (g : Rules) (v : g.Pos → V) (pos : g.Pos) :
    List g.Move → V → V
  | [], acc => acc
  | m :: ms, acc => pureMax g v pos ms (max acc (v (g.push pos m)))

/-- Specification-side definition: accumulating minimum, no pruning. -/
def pureMin (g : Rules) (v : g.Pos → V) (pos : g.Pos) :
    List g.Move → V → V
  | [], acc => acc
  | m :: ms, acc => pureMin g v pos ms (min acc (v (g.push pos m)))

/-- Specification-side definition: full unpruned minimax over the same
game tree with the same leaf evaluator, per spec §8 ("Alpha-beta result
equals full (unpruned) minimax result"). -/
def minimaxUnpruned (g : Rules) (model : Tensor → ℚ) :
    Nat → g.Pos → Bool → V
  | 0, pos, _ => evaluate g model pos
  | d + 1, pos, maximizing =>
    if g.gameOver pos then evaluate g model pos
    else if maximizing then
      pureMax g (fun p => minimaxUnpruned g model d p false) pos
        (g.legalMoves pos) ⊥
    else
      pureMin g (fun p => minimaxUnpruned g model d p true) pos
        (g.legalMoves pos) ⊤

/-- The root loop of `ChessEngine.get_move` (lines 100–112): score every
legal move by pushing it and calling `minimax(board, depth - 1, -inf,
inf, not board.turn)` — note that `board.turn` is read *after* the push,
so the flag passed is the *root* mover's color — then keep the move
whose value is strictly better (greater for White, less for Black) than
the running best.  `g.turn pos` is the root side to move (the comparison
`board.turn == chess.WHITE` runs after the pop). -/
def rootLoop (g : Rules) (model : Tensor → ℚ) (pos : g.Pos)
    (depth : Nat) :
    List g.Move → V → Option g.Move → Option g.Move
  | [], _, best => best
  | m :: ms, bestVal, best =>
    let val := minimax g model (depth - 1) (g.push pos m) ⊥ ⊤
      (!(g.turn (g.push pos m)))
    if g.turn pos then
      if bestVal < val then rootLoop g model pos depth ms val (some m)
      else rootLoop g model pos depth ms bestVal best
    else
      if val < bestVal then rootLoop g model pos depth ms val (some m)
      else rootLoop g model pos depth ms bestVal best

/-- Lines 96–114 of `ChessEngine.get_move`: run the root loop starting
from `best_val = -inf` (White) or `+inf` (Black) and `best_move = None`;
if no best move was found, fall back to `random.choice(legal_moves)`,
modelled as the element at index `k % length`. -/
def searchMove (g : Rules) (model : Tensor → ℚ) (pos : g.Pos)
    (depth : Nat) (k : Nat) : Option g.Move :=
  match rootLoop g model pos depth (g.legalMoves pos)
      (if g.turn pos then ⊥ else ⊤) none with
  | some m => some m
  | none => (g.legalMoves pos)[k % (g.legalMoves pos).length]?

/-- `ChessEngine.get_move`: return `None` on an empty legal-move set;
otherwise apply the ELO tier logic — below 1000, with probability 0.5
return a random legal move, else search at depth 1; below 1800, with
probability 0.2 return a random legal move, else depth 2; otherwise
depth 3 with no random draw.  `r` is the value drawn by
`random.random()` (the float literals 0.5 and 0.2 are the rationals
1/2 and 1/5); `k` selects the `random.choice` element.  The source
returns `str(move)`; rendering a move to UCI text is a bijection owned
by the external rules engine and is not modelled. -/
def get_move (g : Rules) (model : Tensor → ℚ) (pos : g.Pos)
    (target_elo : Int) (r : ℚ) (k : Nat) : Option g.Move :=
  let legal_moves := g.legalMoves pos
  if legal_moves.isEmpty then none
  else if target_elo < 1000 then
    if r < 1/2 then legal_moves[k % legal_moves.length]?
    else searchMove g model pos 1 k
  else if target_elo < 1800 then
    if r < 1/5 then legal_moves[k % legal_moves.length]?
    else searchMove g model pos 2 k
  else searchMove g model pos 3 k

/-! ### Trainer (`SelfTrainer`) -/

/-- The reward mapping of `SelfTrainer.play_game`: `"1-0" → 1.0`,
`"0-1" → -1.0`, anything else (draws, unfinished) `→ 0.0`. -/
def gameReward (result : String) : ℚ :=
  if result = "1-0" then 1 else if result = "0-1" then -1 else 0

/-- The training phase of `SelfTrainer.play_game`: one
`engine.train_step(tensor, target)` per recorded
`(tensor, turn)` pair of the game history, in order, all with the same
target `gameReward result`.  `train_step` is the abstract update of the
model/optimizer state `S` (one forward pass, MSE loss, backward pass,
optimizer step). -/
def playGameTrain {S : Type} (train_step : S → Tensor → ℚ → S)
    (result : String) (history : List (Tensor × Bool)) (s : S) : S :=
  history.foldl (fun st p => train_step st p.1 (gameReward result)) s

/-- The sequence of `(tensor, target)` arguments passed to `train_step`
by the training phase: one call per recorded pair, the side-to-move
component ignored, the same reward as every target. -/
def trainCalls (result : String) (history : List (Tensor × Bool)) :
    List (Tensor × ℚ) :=
  history.map fun p => (p.1, gameReward result)

/-- One iteration of `SelfTrainer.loop`, instrumented: which exception
(if any) was caught by the `except` clause, and whether the
`time.sleep(1)` cooldown ran.  The sleep sits *inside* the `try`, after
`play_game()`: it runs only when the game raised no exception. -/
structure IterResult (E : Type) where
  caughtError : Option E
  sleptCooldown : Bool
deriving DecidableEq, Repr

/-- The `try`/`except` body of `SelfTrainer.loop`: a successful
`play_game()` is followed by the cooldown sleep; an exception is caught
(and logged) and the iteration ends immediately with no sleep.  Either
way the loop continues. -/
def loopIteration {E A : Type} (playGame : Except E A) : IterResult E :=
  match playGame with
  | .ok _ => ⟨none, true⟩
  | .error e => ⟨some e, false⟩

/-- A finite prefix of the (unbounded) `while self.running` trainer
loop, driven by the outcome of each scheduled `play_game()` call: every
scheduled iteration runs — no exception terminates the loop early. -/
def trainerLoop {E A : Type} (plays : List (Except E A)) :
    List (IterResult E) :=
  plays.map loopIteration

/-! ### State-passing embedding

The Python search mutates two pieces of state: the `chess.Board` (via
`push`/`pop`, which maintain a move stack) and — potentially — the
engine's model/optimizer state `self.model`/`self.optimizer`.  The
variants below thread both explicitly; `minimaxF_eq` etc. relate them to
the pure value functions above. -/

/-- A `chess.Board` as mutated by `push`/`pop`: the current position and
the stack of previous positions that `pop` restores. -/
structure BoardState (g : Rules) where
  cur : g.Pos
  stack : List g.Pos

/-- `board.push(move)`: apply the move, saving the previous position. -/
def pushB (g : Rules) (b : BoardState g) (m : g.Move) : BoardState g :=
  ⟨g.push b.cur m, b.cur :: b.stack⟩

/-- `board.pop()`: restore the previous position.  On an empty stack the
Python raises; the search never pops an empty stack, and the model
leaves the board unchanged there. -/
def popB (g : Rules) (b : BoardState g) : BoardState g :=
  match b with
  | ⟨c, []⟩ => ⟨c, []⟩
  | ⟨_, p :: st⟩ => ⟨p, st⟩

section StateF

variable (g : Rules) {S : Type} (forward : S → Tensor → ℚ)

/-- `ChessEngine.evaluate`, state-passing: a `no_grad` forward pass
reads the model state and returns it unchanged. -/
def evaluateF (s : S) (pos : g.Pos) : V × S :=
  (toV (forward s (board_to_tensor (g.pieceAt pos))), s)

/-- The maximizing loop of `minimax`, threading board and model state:
push, recurse, pop, then update the running maximum and `alpha` and
test the cutoff. -/
def maxLoopF (recF : BoardState g → S → V → V → V × BoardState g × S) :
    List g.Move → BoardState g → S → V → V → V → V × BoardState g × S
  | [], b, s, maxEval, _, _ => (maxEval, b, s)
  | m :: ms, b, s, maxEval, alpha, beta =>
    let b1 := pushB g b m
    let r := recF b1 s alpha beta
    let b3 := popB g r.2.1
    let maxEval' := max maxEval r.1
    let alpha' := max alpha r.1
    if beta ≤ alpha' then (maxEval', b3, r.2.2)
    else maxLoopF recF ms b3 r.2.2 maxEval' alpha' beta

/-- The minimizing loop of `minimax`, threading board and model state. -/
def minLoopF (recF : BoardState g → S → V → V → V × BoardState g × S) :
    List g.Move → BoardState g → S → V → V → V → V × BoardState g × S
  | [], b, s, minEval, _, _ => (minEval, b, s)
  | m :: ms, b, s, minEval, alpha, beta =>
    let b1 := pushB g b m
    let r := recF b1 s alpha beta
    let b3 := popB g r.2.1
    let minEval' := min minEval r.1
    let beta' := min beta r.1
    if beta' ≤ alpha then (minEval', b3, r.2.2)
    else minLoopF recF ms b3 r.2.2 minEval' alpha beta'

/-- `ChessEngine.minimax`, threading board and model state. -/
def minimaxF : Nat → BoardState g → S → V → V → Bool → V × BoardState g × S
  | 0, b, s, _, _, _ =>
    let es := evaluateF g forward s b.cur
    (es.1, b, es.2)
  | d + 1, b, s, alpha, beta, maximizing =>
    if g.gameOver b.cur then
      let es := evaluateF g forward s b.cur
      (es.1, b, es.2)
    else if maximizing then
      maxLoopF g (fun b' s' a bt => minimaxF d b' s' a bt false)
        (g.legalMoves b.cur) b s ⊥ alpha beta
    else
      minLoopF g (fun b' s' a bt => minimaxF d b' s' a bt true)
        (g.legalMoves b.cur) b s ⊤ alpha beta

/-- The root loop of `get_move` (lines 100–112), threading board and
model state: push, score with `minimax` (reading `board.turn` on the
pushed board for the flag), pop, compare using `board.turn` of the
restored board. -/
def rootLoopF (depth : Nat) :
    List g.Move → BoardState g → S → V → Option g.Move →
      Option g.Move × BoardState g × S
  | [], b, s, _, best => (best, b, s)
  | m :: ms, b, s, bestVal, best =>
    let b1 := pushB g b m
    let r := minimaxF g forward (depth - 1) b1 s ⊥ ⊤ (!(g.turn b1.cur))
    let b3 := popB g r.2.1
    if g.turn b3.cur then
      if bestVal < r.1 then rootLoopF depth ms b3 r.2.2 r.1 (some m)
      else rootLoopF depth ms b3 r.2.2 bestVal best
    else
      if r.1 < bestVal then rootLoopF depth ms b3 r.2.2 r.1 (some m)
      else rootLoopF depth ms b3 r.2.2 bestVal best

/-- Lines 96–114 of `get_move`, threading model state.  The board is
constructed locally from the FEN (`chess.Board(fen)`), so it starts
with an empty move stack. -/
def searchMoveF (pos : g.Pos) (depth : Nat) (k : Nat) (s : S) :
    Option g.Move × S :=
  let r := rootLoopF g forward depth (g.legalMoves pos) ⟨pos, []⟩ s
    (if g.turn pos then ⊥ else ⊤) none
  match r.1 with
  | some m => (some m, r.2.2)
  | none => ((g.legalMoves pos)[k % (g.legalMoves pos).length]?, r.2.2)

/-- `ChessEngine.get_move`, threading model state.  The random branches
never touch the model state; the search branches only read it through
`evaluateF`. -/
def get_moveF (pos : g.Pos) (target_elo : Int) (r : ℚ) (k : Nat)
    (s : S) : Option g.Move × S :=
  let legal_moves := g.legalMoves pos
  if legal_moves.isEmpty then (none, s)
  else if target_elo < 1000 then
    if r < 1/2 then (legal_moves[k % legal_moves.length]?, s)
    else searchMoveF g forward pos 1 k s
  else if target_elo < 1800 then
    if r < 1/5 then (legal_moves[k % legal_moves.length]?, s)
    else searchMoveF g forward pos 2 k s
  else searchMoveF g forward pos 3 k s

end StateF

/-! ### The search restores board and model state -/

theorem popB_pushB (g : Rules) (b : BoardState g) (m : g.Move) :
    popB g (pushB g b m) = b := rfl

theorem pushB_cur (g : Rules) (b : BoardState g) (m : g.Move) :
    (pushB g b m).cur = g.push b.cur m := rfl

theorem maxLoopF_eq (g : Rules) {S : Type}
    (recF : BoardState g → S → V → V → V × BoardState g × S)
    (recV : S → g.Pos → V → V → V)
    (h : ∀ b s a bt, recF b s a bt = (recV s b.cur a bt, b, s))
    (ms : List g.Move) :
    ∀ (b : BoardState g) (s : S) (acc alpha beta : V),
      maxLoopF g recF ms b s acc alpha beta =
        (maxLoop g (recV s) b.cur ms acc alpha beta, b, s) := by
  induction ms with
  | nil => intro b s acc alpha beta; rfl
  | cons m ms ih =>
    intro b s acc alpha beta
    simp only [maxLoopF, maxLoop, h, popB_pushB, pushB]
    split
    · rfl
    · exact ih _ _ _ _ _

theorem minLoopF_eq (g : Rules) {S : Type}
    (recF : BoardState g → S → V → V → V × BoardState g × S)
    (recV : S → g.Pos → V → V → V)
    (h : ∀ b s a bt, recF b s a bt = (recV s b.cur a bt, b, s))
    (ms : List g.Move) :
    ∀ (b : BoardState g) (s : S) (acc alpha beta : V),
      minLoopF g recF ms b s acc alpha beta =
        (minLoop g (recV s) b.cur ms acc alpha beta, b, s) := by
  induction ms with
  | nil => intro b s acc alpha beta; rfl
  | cons m ms ih =>
    intro b s acc alpha beta
    simp only [minLoopF, minLoop, h, popB_pushB, pushB]
    split
    · rfl
    · exact ih _ _ _ _ _

theorem minimaxF_eq (g : Rules) {S : Type} (forward : S → Tensor → ℚ) :
    ∀ (d : Nat) (b : BoardState g) (s : S) (alpha beta : V) (mx : Bool),
      minimaxF g forward d b s alpha beta mx =
        (minimax g (forward s) d b.cur alpha beta mx, b, s) := by
  intro d
  induction d with
  | zero => intro b s alpha beta mx; rfl
  | succ d ih =>
    intro b s alpha beta mx
    simp only [minimaxF, minimax]
    split
    · rfl
    · split
      · exact maxLoopF_eq g _ (fun s p a bt => minimax g (forward s) d p a bt false)
          (fun b' s' a bt => ih b' s' a bt false) (g.legalMoves b.cur) b s ⊥ alpha beta
      · exact minLoopF_eq g _ (fun s p a bt => minimax g (forward s) d p a bt true)
          (fun b' s' a bt => ih b' s' a bt true) (g.legalMoves b.cur) b s ⊤ alpha beta

theorem rootLoopF_eq (g : Rules) {S : Type} (forward : S → Tensor → ℚ)
    (depth : Nat) (ms : List g.Move) :
    ∀ (b : BoardState g) (s : S) (bestVal : V) (best : Option g.Move),
      rootLoopF g forward depth ms b s bestVal best =
        (rootLoop g (forward s) b.cur depth ms bestVal best, b, s) := by
  induction ms with
  | nil => intro b s bestVal best; rfl
  | cons m ms ih =>
    intro b s bestVal best
    simp only [rootLoopF, rootLoop, minimaxF_eq, popB_pushB, pushB_cur]
    split
    · split
      · exact ih _ _ _ _
      · exact ih _ _ _ _
    · split
      · exact ih _ _ _ _
      · exact ih _ _ _ _

theorem searchMoveF_eq (g : Rules) {S : Type} (forward : S → Tensor → ℚ)
    (pos : g.Pos) (depth : Nat) (k : Nat) (s : S) :
    searchMoveF g forward pos depth k s =
      (searchMove g (forward s) pos depth k, s) := by
  simp only [searchMoveF, searchMove, rootLoopF_eq]
  split <;> rfl

theorem get_moveF_eq (g : Rules) {S : Type} (forward : S → Tensor → ℚ)
    (pos : g.Pos) (target_elo : Int) (r : ℚ) (k : Nat) (s : S) :
    get_moveF g forward pos target_elo r k s =
      (get_move g (forward s) pos target_elo r k, s) := by
  simp only [get_moveF, get_move]
  split
  · rfl
  · split
    · split
      · rfl
      · exact searchMoveF_eq g forward pos 1 k s
    · split
      · split
        · rfl
        · exact searchMoveF_eq g forward pos 2 k s
      · exact searchMoveF_eq g forward pos 3 k s

/-! ### Alpha-beta pruning does not change the minimax value

The standard argument: an alpha-beta call agrees with the unpruned value
after clamping into the window `[alpha, beta]`; at the full window
`(-inf, +inf)` the clamp is the identity. -/

/-- Clamp a value into the window `[alpha, beta]`. -/
def clamp (alpha beta x : V) : V := max alpha (min beta x)

theorem clamp_bot_top (x : V) : clamp ⊥ ⊤ x = x := by
  rw [clamp, min_eq_right le_top, max_eq_right bot_le]

theorem max_max_distrib (a b c : V) :
    max a (max b c) = max (max a b) (max a c) := by
  rcases le_total b c with h | h
  · rw [max_eq_right h, max_eq_right (max_le_max le_rfl h)]
  · rw [max_eq_left h, max_eq_left (max_le_max le_rfl h)]

theorem min_min_distrib (a b c : V) :
    min a (min b c) = min (min a b) (min a c) := by
  rcases le_total b c with h | h
  · rw [min_eq_left h, min_eq_left (min_le_min le_rfl h)]
  · rw [min_eq_right h, min_eq_right (min_le_min le_rfl h)]

theorem clamp_max_distrib (a b x y : V) :
    clamp a b (max x y) = max (clamp a b x) (clamp a b y) := by
  simp only [clamp]
  rw [min_max_distrib_left, max_max_distrib]

theorem clamp_min_distrib (a b x y : V) :
    clamp a b (min x y) = min (clamp a b x) (clamp a b y) := by
  simp only [clamp]
  rw [min_min_distrib, max_min_distrib_left]

theorem clamp_mono (a b : V) {x y : V} (h : x ≤ y) :
    clamp a b x ≤ clamp a b y :=
  max_le_max le_rfl (min_le_min le_rfl h)

theorem clamp_idem {a b : V} (hab : a ≤ b) (x : V) :
    clamp a b (clamp a b x) = clamp a b x := by
  simp only [clamp]
  rw [min_max_distrib_left, min_eq_right hab,
    min_eq_right (min_le_left b x), ← max_assoc, max_self]

theorem max_clamp_congr {al b : V} (hab : al ≤ b) {a x y : V}
    (h : max a (clamp al b x) = max a (clamp al b y)) :
    max (clamp al b a) (clamp al b x) = max (clamp al b a) (clamp al b y) := by
  rcases le_or_lt (clamp al b x) a with h1 | h1 <;>
    rcases le_or_lt (clamp al b y) a with h2 | h2
  · have hx : clamp al b x ≤ clamp al b a := by
      calc clamp al b x = clamp al b (clamp al b x) := (clamp_idem hab x).symm
        _ ≤ clamp al b a := clamp_mono al b h1
    have hy : clamp al b y ≤ clamp al b a := by
      calc clamp al b y = clamp al b (clamp al b y) := (clamp_idem hab y).symm
        _ ≤ clamp al b a := clamp_mono al b h2
    rw [max_eq_left hx, max_eq_left hy]
  · rw [max_eq_left h1, max_eq_right h2.le] at h
    exact absurd h (ne_of_lt h2)
  · rw [max_eq_right h1.le, max_eq_left h2] at h
    exact absurd h.symm (ne_of_lt h1)
  · rw [max_eq_right h1.le, max_eq_right h2.le] at h
    rw [h]

theorem min_clamp_congr {al b : V} (hab : al ≤ b) {a x y : V}
    (h : min a (clamp al b x) = min a (clamp al b y)) :
    min (clamp al b a) (clamp al b x) = min (clamp al b a) (clamp al b y) := by
  rcases le_or_lt a (clamp al b x) with h1 | h1 <;>
    rcases le_or_lt a (clamp al b y) with h2 | h2
  · have hx : clamp al b a ≤ clamp al b x := by
      calc clamp al b a ≤ clamp al b (clamp al b x) := clamp_mono al b h1
        _ = clamp al b x := clamp_idem hab x
    have hy : clamp al b a ≤ clamp al b y := by
      calc clamp al b a ≤ clamp al b (clamp al b y) := clamp_mono al b h2
        _ = clamp al b y := clamp_idem hab y
    rw [min_eq_left hx, min_eq_left hy]
  · rw [min_eq_left h1, min_eq_right h2.le] at h
    exact absurd h.symm (ne_of_lt h2)
  · rw [min_eq_right h1.le, min_eq_left h2] at h
    exact absurd h (ne_of_lt h1)
  · rw [min_eq_right h1.le, min_eq_right h2.le] at h
    rw [h]

theorem pureMax_max (g : Rules) (v : g.Pos → V) (pos : g.Pos) :
    ∀ (ms : List g.Move) (a c : V),
      pureMax g v pos ms (max a c) = max a (pureMax g v pos ms c) := by
  intro ms
  induction ms with
  | nil => intro a c; rfl
  | cons m ms ih =>
    intro a c
    simp only [pureMax]
    rw [max_assoc, ih]

theorem pureMin_min (g : Rules) (v : g.Pos → V) (pos : g.Pos) :
    ∀ (ms : List g.Move) (a c : V),
      pureMin g v pos ms (min a c) = min a (pureMin g v pos ms c) := by
  intro ms
  induction ms with
  | nil => intro a c; rfl
  | cons m ms ih =>
    intro a c
    simp only [pureMin]
    rw [min_assoc, ih]

theorem pureMax_eq (g : Rules) (v : g.Pos → V) (pos : g.Pos)
    (ms : List g.Move) (acc : V) :
    pureMax g v pos ms acc = max acc (pureMax g v pos ms ⊥) := by
  conv_lhs => rw [show acc = max acc ⊥ from (max_eq_left bot_le).symm]
  exact pureMax_max g v pos ms acc ⊥

theorem pureMin_eq (g : Rules) (v : g.Pos → V) (pos : g.Pos)
    (ms : List g.Move) (acc : V) :
    pureMin g v pos ms acc = min acc (pureMin g v pos ms ⊤) := by
  conv_lhs => rw [show acc = min acc ⊤ from (min_eq_left le_top).symm]
  exact pureMin_min g v pos ms acc ⊤

theorem le_pureMax (g : Rules) (v : g.Pos → V) (pos : g.Pos) :
    ∀ (ms : List g.Move) (acc : V), acc ≤ pureMax g v pos ms acc := by
  intro ms
  induction ms with
  | nil => intro acc; exact le_rfl
  | cons m ms ih => intro acc; exact le_trans (le_max_left _ _) (ih _)

theorem pureMin_le (g : Rules) (v : g.Pos → V) (pos : g.Pos) :
    ∀ (ms : List g.Move) (acc : V), pureMin g v pos ms acc ≤ acc := by
  intro ms
  induction ms with
  | nil => intro acc; exact le_rfl
  | cons m ms ih => intro acc; exact le_trans (ih _) (min_le_left _ _)

theorem maxLoop_clamp (g : Rules) (rec : g.Pos → V → V → V) (v : g.Pos → V)
    (hrec : ∀ p a b, a < b → clamp a b (rec p a b) = clamp a b (v p))
    (pos : g.Pos) (beta : V) :
    ∀ (ms : List g.Move) (acc alpha0 : V), max alpha0 acc < beta →
      clamp alpha0 beta (maxLoop g rec pos ms acc (max alpha0 acc) beta) =
        clamp alpha0 beta (pureMax g v pos ms acc) := by
  intro ms
  induction ms with
  | nil => intro acc alpha0 h; rfl
  | cons m ms ih =>
    intro acc alpha0 h
    have halb : alpha0 ≤ beta := le_trans (le_max_left _ _) h.le
    have he : clamp (max alpha0 acc) beta (rec (g.push pos m) (max alpha0 acc) beta) =
        clamp (max alpha0 acc) beta (v (g.push pos m)) := hrec _ _ _ h
    have hconv : ∀ x : V, clamp (max alpha0 acc) beta x =
        max acc (clamp alpha0 beta x) := by
      intro x
      simp only [clamp]
      rw [max_comm alpha0 acc, max_assoc]
    simp only [maxLoop, pureMax]
    by_cases hbr : beta ≤ max (max alpha0 acc) (rec (g.push pos m) (max alpha0 acc) beta)
    · rw [if_pos hbr]
      have hbe : beta ≤ rec (g.push pos m) (max alpha0 acc) beta := by
        rcases le_max_iff.mp hbr with h1 | h1
        · exact absurd h1 (not_le.mpr h)
        · exact h1
      have h1 : clamp (max alpha0 acc) beta
          (rec (g.push pos m) (max alpha0 acc) beta) = beta := by
        rw [clamp, min_eq_left hbe, max_eq_right h.le]
      have hbvm : beta ≤ v (g.push pos m) := by
        rw [h1] at he
        by_contra hc
        push_neg at hc
        have h2 : clamp (max alpha0 acc) beta (v (g.push pos m)) < beta :=
          max_lt h (lt_of_le_of_lt (min_le_right _ _) hc)
        rw [← he] at h2
        exact lt_irrefl _ h2
      have hL : clamp alpha0 beta
          (max acc (rec (g.push pos m) (max alpha0 acc) beta)) = beta := by
        rw [clamp_max_distrib]
        have h2 : clamp alpha0 beta (rec (g.push pos m) (max alpha0 acc) beta) = beta := by
          rw [clamp, min_eq_left hbe, max_eq_right halb]
        rw [h2, max_eq_right (show clamp alpha0 beta acc ≤ beta by
          rw [clamp]; exact max_le halb (min_le_left _ _))]
      have hR : clamp alpha0 beta
          (pureMax g v pos ms (max acc (v (g.push pos m)))) = beta := by
        have h2 : beta ≤ pureMax g v pos ms (max acc (v (g.push pos m))) :=
          le_trans (le_trans hbvm (le_max_right _ _)) (le_pureMax g v pos ms _)
        rw [clamp, min_eq_left h2, max_eq_right halb]
      rw [hL, hR]
    · rw [if_neg hbr]
      have h' : max alpha0 (max acc (rec (g.push pos m) (max alpha0 acc) beta)) < beta := by
        rw [← max_assoc]
        exact not_le.mp hbr
      rw [show max (max alpha0 acc) (rec (g.push pos m) (max alpha0 acc) beta) =
          max alpha0 (max acc (rec (g.push pos m) (max alpha0 acc) beta)) from
          max_assoc alpha0 acc _]
      rw [ih _ alpha0 h']
      have he' : max acc (clamp alpha0 beta (rec (g.push pos m) (max alpha0 acc) beta)) =
          max acc (clamp alpha0 beta (v (g.push pos m))) := by
        rw [← hconv, ← hconv, he]
      rw [pureMax_eq g v pos ms (max acc (rec (g.push pos m) (max alpha0 acc) beta)),
        pureMax_eq g v pos ms (max acc (v (g.push pos m))),
        clamp_max_distrib, clamp_max_distrib, clamp_max_distrib, clamp_max_distrib,
        max_clamp_congr halb he']

theorem minLoop_clamp (g : Rules) (rec : g.Pos → V → V → V) (v : g.Pos → V)
    (hrec : ∀ p a b, a < b → clamp a b (rec p a b) = clamp a b (v p))
    (pos : g.Pos) (alpha : V) :
    ∀ (ms : List g.Move) (acc beta0 : V), alpha < min beta0 acc →
      clamp alpha beta0 (minLoop g rec pos ms acc alpha (min beta0 acc)) =
        clamp alpha beta0 (pureMin g v pos ms acc) := by
  intro ms
  induction ms with
  | nil => intro acc beta0 h; rfl
  | cons m ms ih =>
    intro acc beta0 h
    have halb : alpha ≤ beta0 := le_trans h.le (min_le_left _ _)
    have hala : alpha ≤ acc := le_trans h.le (min_le_right _ _)
    have he : clamp alpha (min beta0 acc) (rec (g.push pos m) alpha (min beta0 acc)) =
        clamp alpha (min beta0 acc) (v (g.push pos m)) := hrec _ _ _ h
    have hconv : ∀ x : V, clamp alpha (min beta0 acc) x =
        min acc (clamp alpha beta0 x) := by
      intro x
      simp only [clamp]
      rw [min_max_distrib_left, min_eq_right hala, min_comm beta0 acc, min_assoc]
    simp only [minLoop, pureMin]
    by_cases hbr : min (min beta0 acc) (rec (g.push pos m) alpha (min beta0 acc)) ≤ alpha
    · rw [if_pos hbr]
      have hbe : rec (g.push pos m) alpha (min beta0 acc) ≤ alpha := by
        rcases min_le_iff.mp hbr with h1 | h1
        · exact absurd h1 (not_le.mpr h)
        · exact h1
      have h1 : clamp alpha (min beta0 acc)
          (rec (g.push pos m) alpha (min beta0 acc)) = alpha := by
        rw [clamp, max_eq_left (le_trans (min_le_right _ _) hbe)]
      have hbvm : v (g.push pos m) ≤ alpha := by
        rw [h1] at he
        by_contra hc
        push_neg at hc
        have h2 : alpha < clamp alpha (min beta0 acc) (v (g.push pos m)) :=
          lt_of_lt_of_le (lt_min h hc) (le_max_right _ _)
        rw [← he] at h2
        exact lt_irrefl _ h2
      have hL : clamp alpha beta0
          (min acc (rec (g.push pos m) alpha (min beta0 acc))) = alpha := by
        rw [clamp_min_distrib]
        have h2 : clamp alpha beta0 (rec (g.push pos m) alpha (min beta0 acc)) = alpha := by
          rw [clamp, max_eq_left (le_trans (min_le_right _ _) hbe)]
        rw [h2, min_eq_right (show alpha ≤ clamp alpha beta0 acc by
          rw [clamp]; exact le_max_left _ _)]
      have hR : clamp alpha beta0
          (pureMin g v pos ms (min acc (v (g.push pos m)))) = alpha := by
        have h2 : pureMin g v pos ms (min acc (v (g.push pos m))) ≤ alpha :=
          le_trans (pureMin_le g v pos ms _) (le_trans (min_le_right _ _) hbvm)
        rw [clamp, max_eq_left (le_trans (min_le_right _ _) h2)]
      rw [hL, hR]
    · rw [if_neg hbr]
      have h' : alpha < min beta0 (min acc (rec (g.push pos m) alpha (min beta0 acc))) := by
        rw [← min_assoc]
        exact not_le.mp hbr
      rw [show min (min beta0 acc) (rec (g.push pos m) alpha (min beta0 acc)) =
          min beta0 (min acc (rec (g.push pos m) alpha (min beta0 acc))) from
          min_assoc beta0 acc _]
      rw [ih _ beta0 h']
      have he' : min acc (clamp alpha beta0 (rec (g.push pos m) alpha (min beta0 acc))) =
          min acc (clamp alpha beta0 (v (g.push pos m))) := by
        rw [← hconv, ← hconv, he]
      rw [pureMin_eq g v pos ms (min acc (rec (g.push pos m) alpha (min beta0 acc))),
        pureMin_eq g v pos ms (min acc (v (g.push pos m))),
        clamp_min_distrib, clamp_min_distrib, clamp_min_distrib, clamp_min_distrib,
        min_clamp_congr halb he']

theorem minimax_clamp (g : Rules) (model : Tensor → ℚ) :
    ∀ (d : Nat) (pos : g.Pos) (alpha beta : V) (mx : Bool), alpha < beta →
      clamp alpha beta (minimax g model d pos alpha beta mx) =
        clamp alpha beta (minimaxUnpruned g model d pos mx) := by
  intro d
  induction d with
  | zero => intro pos alpha beta mx h; rfl
  | succ d ih =>
    intro pos alpha beta mx h
    simp only [minimax, minimaxUnpruned]
    split
    · rfl
    · split
      · have hx := maxLoop_clamp g (fun p a b => minimax g model d p a b false)
          (fun p => minimaxUnpruned g model d p false)
          (fun p a b hab => ih p a b false hab) pos beta (g.legalMoves pos) ⊥ alpha
          (by rw [max_eq_left bot_le]; exact h)
        rw [max_eq_left bot_le] at hx
        exact hx
      · have hx := minLoop_clamp g (fun p a b => minimax g model d p a b true)
          (fun p => minimaxUnpruned g model d p true)
          (fun p a b hab => ih p a b true hab) pos alpha (g.legalMoves pos) ⊤ beta
          (by rw [min_eq_left le_top]; exact h)
        rw [min_eq_left le_top] at hx
        exact hx

/-! ### Position Encoder characterization -/

theorem slotIndex_val (sq : Fin 64) (p : Piece) :
    (slotIndex sq p).val = sq.val * 12 + pieceCode p := rfl

theorem slotIndex_div (sq : Fin 64) (p : Piece) :
    (slotIndex sq p).val / 12 = sq.val := by
  have h := pieceCode_lt p
  rw [slotIndex_val]
  omega

theorem foldl_tensorStep (board : BoardMap) :
    ∀ (L : List (Fin 64)) (x : Tensor) (i : Fin 768),
      (L.foldl (tensorStep board) x) i =
        if L.any (fun sq => writesTo board sq i) then 1 else x i := by
  intro L
  induction L with
  | nil => intro x i; rfl
  | cons sq L ih =>
    intro x i
    simp only [List.foldl_cons, List.any_cons, ih]
    rcases hsq : board sq with _ | p
    · simp [tensorStep, writesTo, hsq]
    · by_cases hi : i = slotIndex sq p
      · subst hi
        simp only [tensorStep, writesTo, hsq, decide_eq_true_eq]
        rw [Function.update_same]
        simp
      · simp only [tensorStep, writesTo, hsq, decide_eq_true_eq]
        rw [Function.update_noteq hi]
        simp [hi]

theorem board_to_tensor_char (board : BoardMap) (i : Fin 768) :
    board_to_tensor board i =
      if (List.finRange 64).any (fun sq => writesTo board sq i) then 1 else 0 :=
  foldl_tensorStep board (List.finRange 64) (fun _ => 0) i

theorem board_to_tensor_exists (board : BoardMap) (i : Fin 768) :
    board_to_tensor board i =
      if ∃ sq p, board sq = some p ∧ i = slotIndex sq p then 1 else 0 := by
  rw [board_to_tensor_char]
  by_cases h : ∃ sq p, board sq = some p ∧ i = slotIndex sq p
  · obtain ⟨sq, p, hsq, hi⟩ := h
    have hany : (List.finRange 64).any (fun sq => writesTo board sq i) = true :=
      List.any_eq_true.mpr ⟨sq, List.mem_finRange sq, by simp [writesTo, hsq, hi]⟩
    rw [if_pos hany, if_pos ⟨sq, p, hsq, hi⟩]
  · rw [if_neg h, if_neg]
    intro hc
    obtain ⟨sq, _, hw⟩ := List.any_eq_true.mp hc
    rcases hsq : board sq with _ | p
    · simp [writesTo, hsq] at hw
    · simp only [writesTo, hsq, decide_eq_true_eq] at hw
      exact h ⟨sq, p, hsq, hw⟩

/-- The set entries of an encoded position. -/
def setEntries (t : Tensor) : Finset (Fin 768) :=
  Finset.univ.filter (fun i => t i = 1)

/-- The occupied squares of a board. -/
def occupiedSquares (board : BoardMap) : Finset (Fin 64) :=
  Finset.univ.filter (fun sq => (board sq).isSome)

theorem mem_setEntries (board : BoardMap) (i : Fin 768) :
    i ∈ setEntries (board_to_tensor board) ↔
      ∃ sq p, board sq = some p ∧ i = slotIndex sq p := by
  rw [setEntries, Finset.mem_filter, board_to_tensor_exists]
  constructor
  · rintro ⟨-, h⟩
    by_cases hc : ∃ sq p, board sq = some p ∧ i = slotIndex sq p
    · exact hc
    · rw [if_neg hc] at h
      exact absurd h (by norm_num)
  · intro h
    exact ⟨Finset.mem_univ i, by rw [if_pos h]⟩

theorem card_setEntries (board : BoardMap) :
    (setEntries (board_to_tensor board)).card =
      (occupiedSquares board).card := by
  apply Finset.card_nbij'
    (fun i => (⟨i.val / 12, by have := i.isLt; omega⟩ : Fin 64))
    (fun sq => match board sq with
      | some p => slotIndex sq p
      | none => ⟨0, by omega⟩)
  · intro i hi
    obtain ⟨sq, p, hsq, hslot⟩ := (mem_setEntries board i).mp hi
    have hdiv : i.val / 12 = sq.val := by rw [hslot]; exact slotIndex_div sq p
    rw [occupiedSquares, Finset.mem_filter]
    refine ⟨Finset.mem_univ _, ?_⟩
    have hsq' : (⟨i.val / 12, by have := i.isLt; omega⟩ : Fin 64) = sq :=
      Fin.ext hdiv
    rw [hsq', hsq]
    rfl
  · intro sq hsq
    rw [occupiedSquares, Finset.mem_filter] at hsq
    obtain ⟨-, hocc⟩ := hsq
    rcases hb : board sq with _ | p
    · rw [hb] at hocc; exact absurd hocc (by simp)
    · simp only [hb]
      exact (mem_setEntries board _).mpr ⟨sq, p, hb, rfl⟩
  · intro i hi
    obtain ⟨sq, p, hsq, hslot⟩ := (mem_setEntries board i).mp hi
    have hdiv : i.val / 12 = sq.val := by rw [hslot]; exact slotIndex_div sq p
    have hsq' : (⟨i.val / 12, by have := i.isLt; omega⟩ : Fin 64) = sq :=
      Fin.ext hdiv
    rw [hsq', hsq, hslot]
  · intro sq hsq
    rw [occupiedSquares, Finset.mem_filter] at hsq
    obtain ⟨-, hocc⟩ := hsq
    rcases hb : board sq with _ | p
    · rw [hb] at hocc; exact absurd hocc (by simp)
    · simp only [hb]
      exact Fin.ext (slotIndex_div sq p)

/-! ### Concrete instances used as inputs -/

/-- Positions of a depth-2 game tree: root `R` (White to move) with moves
`a` to `A` and `b` to `B`; at `A` and `B` Black is to move, with replies
reaching the terminal leaves `A1/A2` and `B1/B2`. -/
inductive BugPos
  | R | A | B | A1 | A2 | B1 | B2
deriving DecidableEq, Repr

/-- Move labels for `bugGame`. -/
inductive BugMove
  | a | b | m1 | m2
deriving DecidableEq, Repr

/-- Piece placements for `bugGame`: each leaf holds one distinct White
piece on square 0 so that the encoded tensors are distinct. -/
def bugBoard : BugPos → BoardMap
  | .A1 => fun sq => if sq.val = 0 then some ⟨true, .pawn⟩ else none
  | .A2 => fun sq => if sq.val = 0 then some ⟨true, .knight⟩ else none
  | .B1 => fun sq => if sq.val = 0 then some ⟨true, .bishop⟩ else none
  | .B2 => fun sq => if sq.val = 0 then some ⟨true, .rook⟩ else none
  | _ => fun _ => none

/-- A concrete rules engine for the depth-2 tree. -/
def bugGame : Rules where
  Pos := BugPos
  Move := BugMove
  legalMoves := fun p => match p with
    | .R => [.a, .b]
    | .A => [.m1, .m2]
    | .B => [.m1, .m2]
    | _ => []
  push := fun p m => match p, m with
    | .R, .a => .A
    | .R, .b => .B
    | .A, .m1 => .A1
    | .A, .m2 => .A2
    | .B, .m1 => .B1
    | .B, .m2 => .B2
    | p, _ => p
  turn := fun p => match p with
    | .R => true
    | .A => false
    | .B => false
    | _ => true
  gameOver := fun p => match p with
    | .A1 | .A2 | .B1 | .B2 => true
    | _ => false
  pieceAt := bugBoard

/-- A concrete network: reads the leaf's encoded tensor and scores
`A1 ↦ 0`, `A2 ↦ 10`, `B1 ↦ 5`, `B2 ↦ 6` (White's perspective). -/
def bugModel : Tensor → ℚ := fun t =>
  if t ⟨1, by omega⟩ = 1 then 10
  else if t ⟨2, by omega⟩ = 1 then 5
  else if t ⟨3, by omega⟩ = 1 then 6
  else 0

/-- A two-position instance where the root best-move loop finds no best
move although a legal move exists: the only child `C` is non-terminal
but has an empty legal-move list, so its depth ≥ 1 search value is
`-inf` and the strict `>` at the White root never fires. -/
inductive StuckPos
  | R | C
deriving DecidableEq, Repr

/-- Rules engine for the fallback scenario. -/
def stuckGame : Rules where
  Pos := StuckPos
  Move := Unit
  legalMoves := fun p => match p with
    | .R => [()]
    | .C => []
  push := fun _ _ => .C
  turn := fun p => match p with
    | .R => true
    | .C => false
  gameOver := fun _ => false
  pieceAt := fun _ => fun _ => none

instance : DecidableEq bugGame.Move :=
  (inferInstance : DecidableEq BugMove)

instance : DecidableEq stuckGame.Move :=
  (inferInstance : DecidableEq Unit)

/-- A small board used as a concrete encoder input: a White pawn on
square 0 and a Black queen on square 9. -/
def demoBoard : BoardMap := fun sq =>
  if sq.val = 0 then some ⟨true, PieceType.pawn⟩
  else if sq.val = 9 then some ⟨false, PieceType.queen⟩
  else none

/-! ### Move Selector helper lemmas -/

theorem getElem?_mod_mem {α : Type} (l : List α) (k : Nat) (h : l ≠ []) :
    ∃ m, l[k % l.length]? = some m ∧ m ∈ l := by
  have hlen : 0 < l.length := List.length_pos.mpr h
  have hk : k % l.length < l.length := Nat.mod_lt k hlen
  exact ⟨l[k % l.length], List.getElem?_eq_getElem hk, List.getElem_mem hk⟩

theorem rootLoop_mem (g : Rules) (model : Tensor → ℚ) (pos : g.Pos)
    (depth : Nat) :
    ∀ (ms : List g.Move) (bv : V) (best : Option g.Move) (m : g.Move),
      rootLoop g model pos depth ms bv best = some m →
      best = some m ∨ m ∈ ms := by
  intro ms
  induction ms with
  | nil => intro bv best m h; exact Or.inl h
  | cons m0 ms ih =>
    intro bv best m h
    have step : ∀ (bv' : V) (best' : Option g.Move),
        rootLoop g model pos depth ms bv' best' = some m →
        best' = some m ∨ m ∈ m0 :: ms := by
      intro bv' best' hh
      rcases ih bv' best' m hh with h1 | h1
      · exact Or.inl h1
      · exact Or.inr (List.mem_cons_of_mem _ h1)
    simp only [rootLoop] at h
    split at h
    · split at h
      · rcases step _ _ h with h1 | h1
        · injection h1 with h2
          subst h2
          exact Or.inr (List.mem_cons_self _ _)
        · exact Or.inr h1
      · exact step _ _ h
    · split at h
      · rcases step _ _ h with h1 | h1
        · injection h1 with h2
          subst h2
          exact Or.inr (List.mem_cons_self _ _)
        · exact Or.inr h1
      · exact step _ _ h

theorem searchMove_mem (g : Rules) (model : Tensor → ℚ) (pos : g.Pos)
    (depth : Nat) (k : Nat) (hne : g.legalMoves pos ≠ []) :
    ∃ m, searchMove g model pos depth k = some m ∧ m ∈ g.legalMoves pos := by
  rw [searchMove]
  rcases hr : rootLoop g model pos depth (g.legalMoves pos)
      (if g.turn pos then ⊥ else ⊤) none with _ | m
  · obtain ⟨m, hm, hmem⟩ := getElem?_mod_mem (g.legalMoves pos) k hne
    exact ⟨m, hm, hmem⟩
  · refine ⟨m, rfl, ?_⟩
    rcases rootLoop_mem g model pos depth _ _ _ m hr with h1 | h1
    · exact absurd h1 (by simp)
    · exact h1

/-! ### Claims -/

/-- **C1** (code bug, evaluated at the failing input): on the depth-2
tree `bugGame` (root `R`, White to move; `a` leads to Black replies
worth 0 or 10 for White, `b` to replies worth 5 or 6), the search path
of `get_move` returns move `a` — both at a direct depth-2 search and
through the ≥ 1800 tier — although under optimal adversarial play with
the roles alternating at every ply (`minimaxUnpruned` with the
minimizing flag for Black's reply) move `a` guarantees White only 0
while `b` guarantees 5.  The cause: line 102 evaluates `not board.turn`
*after* `board.push(move)`, so the flag passed is the root mover's own
color and the reply ply is searched with the same side maximizing. -/
theorem C1_root_flag_code_bug :
    searchMove bugGame bugModel BugPos.R 2 0 = some BugMove.a
    ∧ get_move bugGame bugModel BugPos.R 2000 0 0 = some BugMove.a
    ∧ bugGame.push BugPos.R BugMove.a = BugPos.A
    ∧ bugGame.push BugPos.R BugMove.b = BugPos.B
    ∧ minimaxUnpruned bugGame bugModel 1 BugPos.A false = toV 0
    ∧ minimaxUnpruned bugGame bugModel 1 BugPos.B false = toV 5
    ∧ minimaxUnpruned bugGame bugModel 1 BugPos.A false <
        minimaxUnpruned bugGame bugModel 1 BugPos.B false :=
  ⟨by decide, by decide, rfl, rfl, by decide, by decide, by decide⟩

/-- **C2**: for every rules engine, leaf evaluator, position, depth and
maximizing flag, the alpha-beta search started with the bounds
`alpha = -inf`, `beta = +inf` returns exactly the full unpruned minimax
value over the same game tree with the same leaf evaluator: the
`beta <= alpha` cutoff never changes the result. -/
theorem C2_alphabeta_eq_unpruned (g : Rules) (model : Tensor → ℚ)
    (d : Nat) (pos : g.Pos) (mx : Bool) :
    minimax g model d pos ⊥ ⊤ mx = minimaxUnpruned g model d pos mx := by
  have h := minimax_clamp g model d pos ⊥ ⊤ mx bot_lt_top
  rwa [clamp_bot_top, clamp_bot_top] at h

/-- **C3**: `board_to_tensor` is a pure function producing a length-768
vector over {0,1}; the number of set entries equals the number of
occupied squares; each occupied square contributes exactly one set
entry at index `square * 12 + piece_type_rank + (0 if White else 6)`
with ranks Pawn..King ↦ 0..5; every other entry is 0. -/
theorem C3_encoder (board : BoardMap) :
    (∀ i, board_to_tensor board i = 0 ∨ board_to_tensor board i = 1)
    ∧ (setEntries (board_to_tensor board)).card =
        (occupiedSquares board).card
    ∧ (∀ (sq : Fin 64) (p : Piece), board sq = some p →
        board_to_tensor board (slotIndex sq p) = 1
        ∧ (slotIndex sq p).val =
            sq.val * 12 + pieceIndex p.pieceType + (if p.color then 0 else 6))
    ∧ (∀ i : Fin 768, (∀ (sq : Fin 64) (p : Piece),
        board sq = some p → i ≠ slotIndex sq p) →
        board_to_tensor board i = 0) := by
  refine ⟨?_, card_setEntries board, ?_, ?_⟩
  · intro i
    rw [board_to_tensor_exists]
    split
    · exact Or.inr rfl
    · exact Or.inl rfl
  · intro sq p hsq
    refine ⟨?_, ?_⟩
    · rw [board_to_tensor_exists, if_pos ⟨sq, p, hsq, rfl⟩]
    · rw [slotIndex_val, pieceCode, Nat.add_assoc]
  · intro i hi
    rw [board_to_tensor_exists, if_neg]
    rintro ⟨sq, p, hsq, hslot⟩
    exact hi sq p hsq hslot

/-- Witness for C3 at the concrete board `demoBoard` (a White pawn on
square 0, a Black queen on square 9). -/
theorem C3_encoder_witness :
    demoBoard ⟨0, by omega⟩ = some ⟨true, PieceType.pawn⟩
    ∧ board_to_tensor demoBoard (slotIndex ⟨0, by omega⟩ ⟨true, PieceType.pawn⟩) = 1
    ∧ (∀ (sq : Fin 64) (p : Piece), demoBoard sq = some p →
        (⟨5, by omega⟩ : Fin 768) ≠ slotIndex sq p)
    ∧ board_to_tensor demoBoard ⟨5, by omega⟩ = 0 := by
  refine ⟨rfl, ((C3_encoder demoBoard).2.2.1 ⟨0, by omega⟩ ⟨true, PieceType.pawn⟩ rfl).1,
    by decide, (C3_encoder demoBoard).2.2.2 ⟨5, by omega⟩ (by decide)⟩

/-- **C4**: `minimax` at depth 0, and at any depth on a terminal
position, returns exactly `evaluate` (the Evaluator applied to the
encoded position — `evaluate` unfolds to
`model (board_to_tensor (pieceAt pos))`); at depth ≥ 1 on a
non-terminal position it returns the max/min loop over the recursive
calls, with no direct call to the Evaluator at the node itself. -/
theorem C4_leaf_evaluation (g : Rules) (model : Tensor → ℚ)
    (pos : g.Pos) (alpha beta : V) (mx : Bool) :
    minimax g model 0 pos alpha beta mx = evaluate g model pos
    ∧ (∀ d : Nat, g.gameOver pos = true →
        minimax g model d pos alpha beta mx = evaluate g model pos)
    ∧ (∀ d : Nat, g.gameOver pos = false →
        minimax g model (d + 1) pos alpha beta mx =
          if mx then
            maxLoop g (fun p a b => minimax g model d p a b false) pos
              (g.legalMoves pos) ⊥ alpha beta
          else
            minLoop g (fun p a b => minimax g model d p a b true) pos
              (g.legalMoves pos) ⊤ alpha beta) := by
  refine ⟨rfl, ?_, ?_⟩
  · intro d h
    cases d with
    | zero => rfl
    | succ d => simp [minimax, h]
  · intro d h
    simp only [minimax, h]
    rfl

/-- Witness for C4: the terminal position `A1` of `bugGame` at depth 5,
and the non-terminal root at depth 2. -/
theorem C4_leaf_evaluation_witness :
    bugGame.gameOver BugPos.A1 = true
    ∧ minimax bugGame bugModel 5 BugPos.A1 ⊥ ⊤ true =
        evaluate bugGame bugModel BugPos.A1
    ∧ bugGame.gameOver BugPos.R = false
    ∧ minimax bugGame bugModel 2 BugPos.R ⊥ ⊤ true =
        maxLoop bugGame (fun p a b => minimax bugGame bugModel 1 p a b false)
          BugPos.R (bugGame.legalMoves BugPos.R) ⊥ ⊥ ⊤ :=
  ⟨rfl, (C4_leaf_evaluation bugGame bugModel BugPos.A1 ⊥ ⊤ true).2.1 5 rfl,
    rfl, (C4_leaf_evaluation bugGame bugModel BugPos.R ⊥ ⊤ true).2.2 1 rfl⟩

/-- **C5**: the tier table of `get_move` with exclusive upper bounds:
rating < 1000 draws with threshold 0.5 and searches at depth 1;
1000 ≤ rating < 1800 draws with threshold 0.2 and searches at depth 2;
rating ≥ 1800 performs no random draw and searches at depth 3.  When
the random branch fires, the uniformly chosen legal move
(`l[k % l.length]`) is returned directly — the result does not mention
the search or the model. -/
theorem C5_elo_tiers (g : Rules) (model : Tensor → ℚ) (pos : g.Pos)
    (target_elo : Int) (r : ℚ) (k : Nat)
    (hne : g.legalMoves pos ≠ []) :
    (target_elo < 1000 →
      (r < 1/2 → get_move g model pos target_elo r k =
          (g.legalMoves pos)[k % (g.legalMoves pos).length]?)
      ∧ (¬ r < 1/2 → get_move g model pos target_elo r k =
          searchMove g model pos 1 k))
    ∧ (1000 ≤ target_elo → target_elo < 1800 →
      (r < 1/5 → get_move g model pos target_elo r k =
          (g.legalMoves pos)[k % (g.legalMoves pos).length]?)
      ∧ (¬ r < 1/5 → get_move g model pos target_elo r k =
          searchMove g model pos 2 k))
    ∧ (1800 ≤ target_elo →
        get_move g model pos target_elo r k =
          searchMove g model pos 3 k) := by
  have hempty : ¬ (g.legalMoves pos).isEmpty = true := by
    simpa [List.isEmpty_iff] using hne
  refine ⟨?_, ?_, ?_⟩
  · intro helo
    refine ⟨?_, ?_⟩ <;> intro hr <;>
      simp only [get_move, if_neg hempty, if_pos helo]
    · rw [if_pos hr]
    · rw [if_neg hr]
  · intro h1000 h1800
    have helo : ¬ target_elo < 1000 := not_lt.mpr h1000
    refine ⟨?_, ?_⟩ <;> intro hr <;>
      simp only [get_move, if_neg hempty, if_neg helo, if_pos h1800]
    · rw [if_pos hr]
    · rw [if_neg hr]
  · intro h1800
    have helo : ¬ target_elo < 1000 := not_lt.mpr (le_trans (by norm_num) h1800)
    have helo' : ¬ target_elo < 1800 := not_lt.mpr h1800
    simp only [get_move, if_neg hempty, if_neg helo, if_neg helo']

/-- Witness for C5 at the threshold ratings 999, 1000 and 1800 on
`bugGame`'s root, with draw `r = 1/4` (below 0.5, above 0.2). -/
theorem C5_elo_tiers_witness :
    bugGame.legalMoves BugPos.R ≠ []
    ∧ get_move bugGame bugModel BugPos.R 999 (1/4) 0 =
        (bugGame.legalMoves BugPos.R)[0 % (bugGame.legalMoves BugPos.R).length]?
    ∧ get_move bugGame bugModel BugPos.R 1000 (1/4) 0 =
        searchMove bugGame bugModel BugPos.R 2 0
    ∧ get_move bugGame bugModel BugPos.R 1800 (1/4) 0 =
        searchMove bugGame bugModel BugPos.R 3 0 := by
  refine ⟨by decide, ?_, ?_, ?_⟩
  · exact ((C5_elo_tiers bugGame bugModel BugPos.R 999 (1/4) 0
      (by decide)).1 (by decide)).1 (by norm_num)
  · exact ((C5_elo_tiers bugGame bugModel BugPos.R 1000 (1/4) 0
      (by decide)).2.1 (by decide) (by decide)).2 (by norm_num)
  · exact (C5_elo_tiers bugGame bugModel BugPos.R 1800 (1/4) 0
      (by decide)).2.2 (by decide)

/-- **C6**: `get_move` returns `None` iff the legal-move set is empty;
any returned move belongs to the legal-move set; and when the root
comparison finds no best move despite a non-empty legal-move set, the
defined fallback path returns the uniformly chosen legal move
`l[k % l.length]` instead of failing.  (Rendering the move to UCI text
via `str(move)` is owned by the external rules engine.) -/
theorem C6_returns_legal (g : Rules) (model : Tensor → ℚ) (pos : g.Pos)
    (target_elo : Int) (r : ℚ) (k : Nat) :
    (get_move g model pos target_elo r k = none ↔ g.legalMoves pos = [])
    ∧ (∀ m, get_move g model pos target_elo r k = some m →
        m ∈ g.legalMoves pos)
    ∧ (∀ depth : Nat, g.legalMoves pos ≠ [] →
        rootLoop g model pos depth (g.legalMoves pos)
          (if g.turn pos then ⊥ else ⊤) none = none →
        searchMove g model pos depth k =
          (g.legalMoves pos)[k % (g.legalMoves pos).length]?) := by
  have haux : g.legalMoves pos ≠ [] →
      ∃ m, get_move g model pos target_elo r k = some m ∧
        m ∈ g.legalMoves pos := by
    intro hne
    have hempty : ¬ (g.legalMoves pos).isEmpty = true := by
      simpa [List.isEmpty_iff] using hne
    simp only [get_move, if_neg hempty]
    split
    · split
      · exact getElem?_mod_mem _ k hne
      · exact searchMove_mem g model pos 1 k hne
    · split
      · split
        · exact getElem?_mod_mem _ k hne
        · exact searchMove_mem g model pos 2 k hne
      · exact searchMove_mem g model pos 3 k hne
  have hnil : g.legalMoves pos = [] →
      get_move g model pos target_elo r k = none := by
    intro h
    simp [get_move, h]
  refine ⟨⟨?_, hnil⟩, ?_, ?_⟩
  · intro h
    by_contra hne
    obtain ⟨m, hm, -⟩ := haux hne
    rw [h] at hm
    exact Option.noConfusion hm
  · intro m hm
    by_cases hne : g.legalMoves pos = []
    · rw [hnil hne] at hm
      exact Option.noConfusion hm
    · obtain ⟨m', hm', hmem⟩ := haux hne
      rw [hm] at hm'
      injection hm' with h2
      rw [h2]
      exact hmem
  · intro depth _ hroot
    simp only [searchMove, hroot]

/-- Witness for C6: in `stuckGame` the root has one legal move, yet the
root loop finds no best move (the only child is non-terminal with no
replies, so its search value is `-inf` and the strict comparison never
fires); the fallback path returns the `random.choice` element. -/
theorem C6_returns_legal_witness :
    stuckGame.legalMoves StuckPos.R ≠ []
    ∧ rootLoop stuckGame (fun _ => 0) StuckPos.R 3
        (stuckGame.legalMoves StuckPos.R)
        (if stuckGame.turn StuckPos.R then ⊥ else ⊤) none = none
    ∧ searchMove stuckGame (fun _ => 0) StuckPos.R 3 5 =
        (stuckGame.legalMoves StuckPos.R)[5 %
          (stuckGame.legalMoves StuckPos.R).length]?
    ∧ get_move stuckGame (fun _ => 0) StuckPos.R 2500 0 5 = some () := by
  refine ⟨by decide, by decide, ?_, by decide⟩
  exact (C6_returns_legal stuckGame (fun _ => 0) StuckPos.R 2500 0 5).2.2 3
    (by decide) (by decide)

/-- **C7**: the Trainer maps the rules engine's result string to a
scalar reward (`"1-0" ↦ +1`, `"0-1" ↦ -1`, anything else `↦ 0`) and
performs exactly one training step per recorded (tensor, side-to-move)
pair — the side-to-move component is ignored — all against that same
reward value as target. -/
theorem C7_reward_training {S : Type} (train_step : S → Tensor → ℚ → S)
    (result : String) (history : List (Tensor × Bool)) (s : S) :
    gameReward "1-0" = 1
    ∧ gameReward "0-1" = -1
    ∧ (result ≠ "1-0" → result ≠ "0-1" → gameReward result = 0)
    ∧ playGameTrain train_step result history s =
        (trainCalls result history).foldl
          (fun st c => train_step st c.1 c.2) s
    ∧ (trainCalls result history).length = history.length
    ∧ (∀ c ∈ trainCalls result history, c.2 = gameReward result) := by
  refine ⟨rfl, rfl, ?_, ?_, ?_, ?_⟩
  · intro h1 h2
    simp [gameReward, h1, h2]
  · rw [trainCalls, List.foldl_map]
    rfl
  · simp [trainCalls]
  · intro c hc
    obtain ⟨p, -, rfl⟩ := List.mem_map.mp hc
    rfl

/-- Witness for C7: a drawn game result `"1/2-1/2"` with a one-entry
history, trained with a logging train-step. -/
theorem C7_reward_training_witness :
    ("1/2-1/2" : String) ≠ "1-0"
    ∧ ("1/2-1/2" : String) ≠ "0-1"
    ∧ gameReward "1/2-1/2" = 0
    ∧ playGameTrain (fun (s : List (Tensor × ℚ)) t q => (t, q) :: s)
        "1/2-1/2" [(board_to_tensor demoBoard, true)] [] =
      (trainCalls "1/2-1/2" [(board_to_tensor demoBoard, true)]).foldl
        (fun st c => (c.1, c.2) :: st) []
    ∧ (board_to_tensor demoBoard, gameReward "1/2-1/2") ∈
        trainCalls "1/2-1/2" [(board_to_tensor demoBoard, true)] := by
  refine ⟨by decide, by decide, ?_, ?_, ?_⟩
  · exact (C7_reward_training (fun (s : List (Tensor × ℚ)) t q => (t, q) :: s)
      "1/2-1/2" [(board_to_tensor demoBoard, true)] []).2.2.1
      (by decide) (by decide)
  · exact (C7_reward_training (fun (s : List (Tensor × ℚ)) t q => (t, q) :: s)
      "1/2-1/2" [(board_to_tensor demoBoard, true)] []).2.2.2.1
  · exact List.mem_map.mpr ⟨(board_to_tensor demoBoard, true),
      List.mem_singleton.mpr rfl, rfl⟩

/-- **C8, as stated, is false on this code**: the `time.sleep(1)`
cooldown sits *inside* the `try`, after `play_game()`, so when a game
iteration raises, the `except` branch catches and logs the exception
and the loop proceeds to the next iteration *without* the cooldown
delay.  Concretely: the iteration for a raising `play_game` records the
caught error and `sleptCooldown = false`. -/
theorem C8_cooldown_skipped_counterexample :
    (loopIteration (Except.error "boom" : Except String Unit)).caughtError =
        some "boom"
    ∧ (loopIteration (Except.error "boom" : Except String Unit)).sleptCooldown =
        false :=
  ⟨rfl, rfl⟩

/-- **C8 (amended)**: every exception raised during one self-play game
iteration is caught (and logged) and the loop proceeds to the next
scheduled iteration — immediately, with no cooldown, on the exception
path; with the fixed cooldown only after a successful iteration — and
no exception terminates the loop: a prefix of scheduled iterations is
always processed in full. -/
theorem C8_exceptions_caught {E A : Type} (e : E) (a : A)
    (plays : List (Except E A)) :
    trainerLoop (Except.error e :: plays) =
        ⟨some e, false⟩ :: trainerLoop plays
    ∧ trainerLoop (Except.ok a :: plays) =
        ⟨none, true⟩ :: trainerLoop plays
    ∧ (trainerLoop plays).length = plays.length :=
  ⟨rfl, rfl, List.length_map plays loopIteration⟩

/-- **C9**: the search leaves the board state exactly as it found it:
`minimax` (all paths, including early `beta <= alpha` cutoffs, which
occur after the `pop`) and the root loop of `get_move` return the board
state they were given, and their values agree with the pure functions
of the entry position. -/
theorem C9_board_restored (g : Rules) {S : Type}
    (forward : S → Tensor → ℚ) (d : Nat) (b : BoardState g) (s : S)
    (alpha beta : V) (mx : Bool) (depth : Nat) (ms : List g.Move)
    (bestVal : V) (best : Option g.Move) :
    minimaxF g forward d b s alpha beta mx =
      (minimax g (forward s) d b.cur alpha beta mx, b, s)
    ∧ rootLoopF g forward depth ms b s bestVal best =
      (rootLoop g (forward s) b.cur depth ms bestVal best, b, s) :=
  ⟨minimaxF_eq g forward d b s alpha beta mx,
    rootLoopF_eq g forward depth ms b s bestVal best⟩

/-- **C10**: serving a move request leaves the model state unchanged —
the serving path reads the parameters only through the gradient-free
forward pass and never invokes a training step — so the result is
computed from the parameters as given, and running the same request
again from the resulting state reproduces the identical result. -/
theorem C10_serving_preserves_model (g : Rules) {S : Type}
    (forward : S → Tensor → ℚ) (pos : g.Pos) (target_elo : Int)
    (r : ℚ) (k : Nat) (s : S) :
    (get_moveF g forward pos target_elo r k s).2 = s
    ∧ (get_moveF g forward pos target_elo r k s).1 =
        get_move g (forward s) pos target_elo r k
    ∧ get_moveF g forward pos target_elo r k
        ((get_moveF g forward pos target_elo r k s).2) =
      get_moveF g forward pos target_elo r k s := by
  refine ⟨?_, ?_, ?_⟩ <;> simp [get_moveF_eq]

end ChessAI
